import Mathlib

/-!
Verification of the UNIFS archive builder (`src/tools/mkunifs.py`).

The builder walks a source tree, collects directory and file entries,
and writes a 16-byte header, an 80-byte record per entry, and the
concatenated file contents.  We embed the byte-level construction
shallowly: bytes are `Nat` values, byte strings are `List Nat`, fallible
file reads are `Option`, and the produced image is the `List Nat` the
writer would emit.
-/

namespace UniFS

set_option maxRecDepth 100000

/-- The 8-byte ASCII magic `"UNIFS v1"`. -/
def magic : List Nat := [85, 78, 73, 70, 83, 32, 118, 49]

/-- Little-endian encoding of `n` into `k` bytes (each byte reduced mod 256),
mirroring `struct.pack` integer packing. -/
def u64leAux : Nat → Nat → List Nat
  | 0, _ => []
  | k + 1, n => n % 256 :: u64leAux k (n / 256)

/-- `struct.pack "<Q"`: unsigned 64-bit little-endian. -/
def u64le (n : Nat) : List Nat := u64leAux 8 n

/-- Little-endian decoding of a byte list back into a natural number. -/
def decodeU64 : List Nat → Nat
  | [] => 0
  | b :: bs => b + 256 * decodeU64 bs

/-- `struct.pack "64s"`: the byte string, zero-padded (or cut) to 64 bytes. -/
def pack64s (s : List Nat) : List Nat := (s ++ List.replicate 64 0).take 64

/-- The builder truncates names longer than 63 bytes to their first 63 bytes
(`name_bytes = name_bytes[:63]`). -/
def truncName (s : List Nat) : List Nat := if s.length > 63 then s.take 63 else s

/-- A collected entry, as built by the `os.walk` loop of `create_unifs`:
the relative-path name in UTF-8 bytes (directories carry a trailing `/`),
the directory flag, and for files the result of reading the source file
(`none` models a read failure; directories are never read). -/
structure Entry where
  name : List Nat
  isDir : Bool
  content : Option (List Nat)
deriving DecidableEq, Repr

/-- The content the loop body obtains for an entry: `b""` for directories,
otherwise the (fallible) file read. -/
def readEntry (e : Entry) : Option (List Nat) :=
  if e.isDir then some [] else e.content

/-- The content bytes an entry contributes, assuming its read succeeded. -/
def entContent (e : Entry) : List Nat :=
  if e.isDir then [] else e.content.getD []

/-- The `size` field of an entry (its content length; 0 for directories). -/
def entSize (e : Entry) : Nat := (entContent e).length

/-- The 80-byte record `struct.pack "<64sQQ"` emits for an entry at a given
running offset. -/
def mkRecord (e : Entry) (off : Nat) : List Nat :=
  pack64s (truncName e.name) ++ u64le off ++ u64le (entSize e)

/-- The main loop of `create_unifs`: reads each entry, packs its record with
the running offset, and appends file content to the data blob, advancing the
offset only for files.  A failed read aborts the whole build (`none`). -/
def buildLoop : List Entry → Nat → Option (List (List Nat) × List Nat)
  | [], _ => some ([], [])
  | e :: rest, off =>
    match readEntry e with
    | none => none
    | some content =>
      match buildLoop rest (if e.isDir then off else off + content.length) with
      | none => none
      | some (recs, blob) =>
        some ((pack64s (truncName e.name) ++ u64le off ++ u64le content.length) :: recs,
              (if e.isDir then [] else content) ++ blob)

/-- `create_unifs`, given the collected entry list: the bytes written to the
output file (`header`, then every record, then the data blob), or `none` when
a source read failed, in which case the output file is never opened. -/
def create_unifs (entries : List Entry) : Option (List Nat) :=
  match buildLoop entries (16 + entries.length * 80) with
  | none => none
  | some (recs, blob) => some (magic ++ u64le entries.length ++ recs.flatten ++ blob)

/-- The record list `buildLoop` produces when every read succeeds, written as
a direct recursion on the entry list with an explicit running offset. -/
def specRecs (off : Nat) : List Entry → List (List Nat)
  | [] => []
  | e :: rest => mkRecord e off :: specRecs (off + entSize e) rest

/-- The running offset packed into the `i`-th record:
`16 + 80*N` plus the sizes of all earlier entries (directories add 0). -/
def offsetAt (entries : List Entry) (i : Nat) : Nat :=
  16 + entries.length * 80 + (((entries.take i).map entSize).sum)

/-- Every file entry in the list was read successfully. -/
def readsOk (entries : List Entry) : Bool :=
  entries.all fun e => e.isDir || e.content.isSome

/-- A source directory tree: named subdirectories and named files with their
content bytes, in the order the OS listing reports them. -/
inductive FS : Type where
  | node (subdirs : List (List Nat × FS)) (files : List (List Nat × List Nat)) : FS
deriving Repr

mutual

/-- The `os.walk` collection loop: for each visited directory (root first,
then each subdirectory in depth-first order) append one entry per child
directory (relative path plus `/`, byte 47) and then one entry per file. -/
def FS.walk (pre : List Nat) : FS → List Entry
  | .node subdirs files =>
    (subdirs.map fun p => Entry.mk (pre ++ p.1 ++ [47]) true none)
    ++ (files.map fun p => Entry.mk (pre ++ p.1) false (some p.2))
    ++ FS.walkList pre subdirs

/-- Depth-first recursion of `os.walk` into each subdirectory, in order. -/
def FS.walkList (pre : List Nat) : List (List Nat × FS) → List Entry
  | [] => []
  | p :: rest => FS.walk (pre ++ p.1 ++ [47]) p.2 ++ FS.walkList pre rest

end

/-- Entry count decoded from the image header (bytes `[8,16)`). -/
def decodeCount (img : List Nat) : Nat := decodeU64 ((img.drop 8).take 8)

/-- The `i`-th 80-byte record of the entry table. -/
def recordAt (img : List Nat) (i : Nat) : List Nat := (img.drop (16 + 80 * i)).take 80

/-- The 64-byte name field of the `i`-th record. -/
def nameFieldAt (img : List Nat) (i : Nat) : List Nat := (recordAt img i).take 64

/-- The name decoded from the `i`-th record: the field up to the first NUL. -/
def decodeName (img : List Nat) (i : Nat) : List Nat :=
  (nameFieldAt img i).takeWhile (fun b => b ≠ 0)

/-- The offset field of the `i`-th record (bytes `[64,72)`). -/
def decodeOffset (img : List Nat) (i : Nat) : Nat :=
  decodeU64 (((recordAt img i).drop 64).take 8)

/-- The size field of the `i`-th record (bytes `[72,80)`). -/
def decodeSize (img : List Nat) (i : Nat) : Nat :=
  decodeU64 (((recordAt img i).drop 72).take 8)

/-- The content slice the `i`-th record points at:
`size` bytes of the image starting at absolute position `offset`. -/
def decodeContent (img : List Nat) (i : Nat) : List Nat :=
  (img.drop (decodeOffset img i)).take (decodeSize img i)

/-! ### Basic length and decoding lemmas -/

lemma length_u64leAux (k n : Nat) : (u64leAux k n).length = k := by
  induction k generalizing n with
  | zero => rfl
  | succ k ih => simp [u64leAux, ih]

lemma length_u64le (n : Nat) : (u64le n).length = 8 := length_u64leAux 8 n

lemma length_pack64s (s : List Nat) : (pack64s s).length = 64 := by
  simp [pack64s]

lemma length_truncName_le (s : List Nat) : (truncName s).length ≤ 63 := by
  unfold truncName
  split <;> simp_all

lemma length_mkRecord (e : Entry) (off : Nat) : (mkRecord e off).length = 80 := by
  simp [mkRecord, length_pack64s, length_u64le]

lemma length_magic : magic.length = 8 := rfl

lemma length_header (n : Nat) : (magic ++ u64le n).length = 16 := by
  simp [length_magic, length_u64le]

lemma decodeU64_u64leAux (k n : Nat) : decodeU64 (u64leAux k n) = n % 256 ^ k := by
  induction k generalizing n with
  | zero => simp [u64leAux, decodeU64, Nat.mod_one]
  | succ k ih =>
    rw [u64leAux, decodeU64, ih, pow_succ, mul_comm (256 ^ k) 256, Nat.mod_mul]

lemma decodeU64_u64le (n : Nat) (h : n < 2 ^ 64) : decodeU64 (u64le n) = n := by
  have h8 : (256 : Nat) ^ 8 = 2 ^ 64 := by norm_num
  rw [u64le, decodeU64_u64leAux, h8, Nat.mod_eq_of_lt h]

lemma entSize_dir (e : Entry) (h : e.isDir = true) : entSize e = 0 := by
  simp [entSize, entContent, h]

lemma pack64s_eq_of_le (s : List Nat) (h : s.length ≤ 64) :
    pack64s s = s ++ List.replicate (64 - s.length) 0 := by
  unfold pack64s
  rw [show 64 = s.length + (64 - s.length) by omega, List.take_append,
    List.take_replicate]
  congr 2
  omega

/-! ### The loop computes the spec-shaped records and blob -/

lemma buildLoop_eq (entries : List Entry) (off : Nat) (h : readsOk entries = true) :
    buildLoop entries off
      = some (specRecs off entries, (entries.map entContent).flatten) := by
  induction entries generalizing off with
  | nil => rfl
  | cons e rest ih =>
    rw [readsOk, List.all_cons, Bool.and_eq_true] at h
    have hrest : readsOk rest = true := h.2
    cases hd : e.isDir with
    | true =>
      have hc : readEntry e = some [] := by simp [readEntry, hd]
      simp [buildLoop, hc, hd, ih off hrest, specRecs, mkRecord, entContent, entSize]
    | false =>
      obtain ⟨c, hc⟩ : ∃ c, e.content = some c := by
        rw [hd] at h
        simpa [Option.isSome_iff_exists] using h.1
      have hre : readEntry e = some c := by simp [readEntry, hd, hc]
      simp [buildLoop, hre, hd, ih (off + c.length) hrest, specRecs, mkRecord,
        entContent, entSize, hc]

lemma create_unifs_eq (entries : List Entry) (h : readsOk entries = true) :
    create_unifs entries
      = some (magic ++ u64le entries.length
          ++ (specRecs (16 + entries.length * 80) entries).flatten
          ++ (entries.map entContent).flatten) := by
  rw [create_unifs, buildLoop_eq entries _ h]

lemma specRecs_length (off : Nat) (l : List Entry) : (specRecs off l).length = l.length := by
  induction l generalizing off with
  | nil => rfl
  | cons e rest ih => simp [specRecs, ih]

lemma mem_specRecs_length (off : Nat) (l : List Entry) (r : List Nat)
    (h : r ∈ specRecs off l) : r.length = 80 := by
  induction l generalizing off with
  | nil => simp [specRecs] at h
  | cons e rest ih =>
    rw [specRecs, List.mem_cons] at h
    rcases h with h | h
    · rw [h]; exact length_mkRecord e off
    · exact ih _ h

lemma specRecs_map_length (off : Nat) (l : List Entry) :
    ((specRecs off l).map List.length).sum = 80 * l.length := by
  induction l generalizing off with
  | nil => rfl
  | cons e rest ih => simp [specRecs, length_mkRecord, ih]; ring

lemma length_flatten_specRecs (off : Nat) (l : List Entry) :
    (specRecs off l).flatten.length = 80 * l.length := by
  rw [List.length_flatten, specRecs_map_length]

lemma specRecs_drop (l : List Entry) (off i : Nat) :
    (specRecs off l).drop i
      = specRecs (off + ((l.take i).map entSize).sum) (l.drop i) := by
  induction l generalizing off i with
  | nil => simp [specRecs]
  | cons e rest ih =>
    cases i with
    | zero => simp [specRecs]
    | succ i =>
      rw [specRecs, List.drop_succ_cons, ih, List.take_succ_cons, List.drop_succ_cons,
        List.map_cons, List.sum_cons]
      congr 1
      omega

/-! ### Extracting one record or one content run from a flattened region -/

lemma flatten_drop_eighty (L : List (List Nat)) (h : ∀ r ∈ L, r.length = 80) (i : Nat) :
    L.flatten.drop (80 * i) = (L.drop i).flatten := by
  induction i generalizing L with
  | zero => simp
  | succ i ih =>
    cases L with
    | nil => simp
    | cons x rest =>
      have hx : x.length = 80 := h x (List.mem_cons_self x rest)
      have hr : ∀ r ∈ rest, r.length = 80 := fun r hrr => h r (List.mem_cons_of_mem x hrr)
      rw [List.flatten_cons, show 80 * (i + 1) = 80 + 80 * i by ring, ← List.drop_drop,
        List.drop_left' hx, ih rest hr, List.drop_succ_cons]

lemma flatten_drop_sum_take (L : List (List Nat)) (i : Nat) :
    L.flatten.drop (((L.take i).map List.length).sum) = (L.drop i).flatten := by
  induction i generalizing L with
  | zero => simp
  | succ i ih =>
    cases L with
    | nil => simp
    | cons x rest =>
      rw [List.flatten_cons, List.take_succ_cons, List.map_cons, List.sum_cons,
        ← List.drop_drop, List.drop_left, ih, List.drop_succ_cons]

/-! ### Offset bookkeeping -/

lemma offsetAt_zero (entries : List Entry) :
    offsetAt entries 0 = 16 + entries.length * 80 := by
  simp [offsetAt]

lemma offsetAt_succ_of_get (entries : List Entry) (i : Nat) (e : Entry)
    (h : entries[i]? = some e) :
    offsetAt entries (i + 1) = offsetAt entries i + entSize e := by
  unfold offsetAt
  rw [List.take_succ, h]
  simp [List.map_append, List.sum_append]
  omega

lemma offsetAt_succ_of_none (entries : List Entry) (i : Nat)
    (h : entries[i]? = none) :
    offsetAt entries (i + 1) = offsetAt entries i := by
  unfold offsetAt
  rw [List.take_succ, h]
  simp

lemma offsetAt_mono (entries : List Entry) {i k : Nat} (h : i ≤ k) :
    offsetAt entries i ≤ offsetAt entries k := by
  induction k, h using Nat.le_induction with
  | base => exact Nat.le_refl _
  | succ k hik ih =>
    cases hk : entries[k]? with
    | none => rw [offsetAt_succ_of_none entries k hk]; exact ih
    | some e => rw [offsetAt_succ_of_get entries k e hk]; omega

lemma offsetAt_stable_of_dirs (entries : List Entry) {i k : Nat} (h : i ≤ k) :
    (∀ j e, i ≤ j → j < k → entries[j]? = some e → e.isDir = true) →
    offsetAt entries k = offsetAt entries i := by
  induction k, h using Nat.le_induction with
  | base => intro _; rfl
  | succ k hik ih =>
    intro hd
    have ih2 := ih fun j e hj1 hj2 hje => hd j e hj1 (by omega) hje
    cases hk : entries[k]? with
    | none => rw [offsetAt_succ_of_none entries k hk, ih2]
    | some e =>
      rw [offsetAt_succ_of_get entries k e hk,
        entSize_dir e (hd k e hik (by omega) hk), ih2, Nat.add_zero]

lemma offsetAt_length_eq (entries : List Entry) :
    offsetAt entries entries.length
      = 16 + entries.length * 80 + (entries.map entSize).sum := by
  simp [offsetAt, List.take_length]

lemma sum_map_take_le (l : List Entry) (i : Nat) :
    ((l.take i).map entSize).sum ≤ (l.map entSize).sum := by
  conv_rhs => rw [← List.take_append_drop i l]
  rw [List.map_append, List.sum_append]
  exact Nat.le_add_right _ _

lemma offsetAt_le (entries : List Entry) (i : Nat) :
    offsetAt entries i ≤ 16 + entries.length * 80 + (entries.map entSize).sum := by
  unfold offsetAt
  have := sum_map_take_le entries i
  omega

lemma entSize_le_sum (entries : List Entry) (i : Nat) (e : Entry)
    (h : entries[i]? = some e) :
    entSize e ≤ (entries.map entSize).sum := by
  have hm : entSize e ∈ entries.map entSize :=
    List.mem_map_of_mem entSize (List.getElem?_mem h)
  exact List.single_le_sum (fun x _ => Nat.zero_le x) _ hm

lemma drop_eq_cons_of_getElem (l : List Entry) (i : Nat) (e : Entry)
    (h : l[i]? = some e) :
    l.drop i = e :: l.drop (i + 1) := by
  obtain ⟨hlt, he⟩ := List.getElem?_eq_some_iff.mp h
  rw [List.drop_eq_getElem_cons hlt, he]

/-! ### The record the image holds at index `i` -/

lemma recordAt_spec (entries : List Entry) (img : List Nat) (i : Nat) (e : Entry)
    (hok : readsOk entries = true)
    (himg : create_unifs entries = some img)
    (he : entries[i]? = some e) :
    recordAt img i = mkRecord e (offsetAt entries i) := by
  have hlt : i < entries.length := (List.getElem?_eq_some_iff.mp he).1
  rw [create_unifs_eq entries hok, Option.some_inj] at himg
  have hall : ∀ r ∈ specRecs (16 + entries.length * 80) entries, r.length = 80 :=
    fun r hr => mem_specRecs_length _ _ r hr
  have hJlen : (specRecs (16 + entries.length * 80) entries).flatten.length
      = 80 * entries.length := length_flatten_specRecs _ _
  rw [recordAt, ← himg, List.append_assoc,
    show 16 + 80 * i = (magic ++ u64le entries.length).length + 80 * i by
      rw [length_header],
    List.drop_append,
    List.drop_append_of_le_length (by rw [hJlen]; omega),
    List.take_append_of_le_length (by rw [List.length_drop, hJlen]; omega),
    flatten_drop_eighty _ hall i, specRecs_drop,
    drop_eq_cons_of_getElem entries i e he, specRecs, List.flatten_cons,
    List.take_left' (length_mkRecord e _)]
  rfl

lemma nameField_of_recordAt (img : List Nat) (i : Nat) (e : Entry) (off : Nat)
    (h : recordAt img i = mkRecord e off) :
    nameFieldAt img i = pack64s (truncName e.name) := by
  rw [nameFieldAt, h, mkRecord, List.append_assoc,
    List.take_append_of_le_length (by rw [length_pack64s]),
    List.take_of_length_le (by rw [length_pack64s])]

lemma decodeOffset_of_recordAt (img : List Nat) (i : Nat) (e : Entry) (off : Nat)
    (h : recordAt img i = mkRecord e off) (hoff : off < 2 ^ 64) :
    decodeOffset img i = off := by
  rw [decodeOffset, h, mkRecord, List.append_assoc,
    List.drop_left' (length_pack64s _), List.take_left' (length_u64le off),
    decodeU64_u64le off hoff]

lemma decodeSize_of_recordAt (img : List Nat) (i : Nat) (e : Entry) (off : Nat)
    (h : recordAt img i = mkRecord e off) (hsz : entSize e < 2 ^ 64) :
    decodeSize img i = entSize e := by
  rw [decodeSize, h, mkRecord,
    List.drop_left' (by rw [List.length_append, length_pack64s, length_u64le]),
    List.take_of_length_le (by rw [length_u64le]),
    decodeU64_u64le _ hsz]

lemma decodeCount_spec (entries : List Entry) (img : List Nat)
    (hok : readsOk entries = true)
    (himg : create_unifs entries = some img)
    (hN : entries.length < 2 ^ 64) :
    decodeCount img = entries.length := by
  rw [create_unifs_eq entries hok, Option.some_inj] at himg
  rw [decodeCount, ← himg, List.append_assoc, List.append_assoc,
    List.drop_left' (show magic.length = 8 from rfl),
    List.take_left' (length_u64le entries.length),
    decodeU64_u64le _ hN]

lemma decodeName_of_recordAt (img : List Nat) (i : Nat) (e : Entry) (off : Nat)
    (hrec : recordAt img i = mkRecord e off)
    (hnul : ∀ b ∈ e.name, b ≠ 0) :
    decodeName img i = truncName e.name := by
  have hnul2 : ∀ b ∈ truncName e.name, b ≠ 0 := by
    intro b hb
    apply hnul
    unfold truncName at hb
    split at hb
    · exact List.mem_of_mem_take hb
    · exact hb
  have hself : List.takeWhile (fun b => decide (b ≠ 0)) (truncName e.name)
      = truncName e.name :=
    List.takeWhile_eq_self_iff.mpr fun x hx => by simpa using hnul2 x hx
  rw [decodeName, nameField_of_recordAt img i e off hrec,
    pack64s_eq_of_le _ (Nat.le_trans (length_truncName_le _) (by omega)),
    List.takeWhile_append, hself]
  simp [List.takeWhile_replicate]

lemma nameField_last_zero (img : List Nat) (i : Nat) (e : Entry) (off : Nat)
    (hrec : recordAt img i = mkRecord e off) :
    (nameFieldAt img i).drop 63 = [0] := by
  have hlen : (truncName e.name).length ≤ 63 := length_truncName_le _
  rw [nameField_of_recordAt img i e off hrec,
    pack64s_eq_of_le _ (by omega),
    show (63 : Nat) = (truncName e.name).length + (63 - (truncName e.name).length)
      by omega,
    List.drop_append, List.drop_replicate,
    show 64 - (truncName e.name).length - (63 - (truncName e.name).length) = 1
      by omega]
  rfl

lemma decodeContent_spec (entries : List Entry) (img : List Nat) (i : Nat) (e : Entry)
    (hok : readsOk entries = true)
    (himg : create_unifs entries = some img)
    (hbound : 16 + entries.length * 80 + (entries.map entSize).sum < 2 ^ 64)
    (he : entries[i]? = some e) :
    decodeContent img i = entContent e := by
  have hrec := recordAt_spec entries img i e hok himg he
  have hofflt : offsetAt entries i < 2 ^ 64 :=
    Nat.lt_of_le_of_lt (offsetAt_le entries i) hbound
  have hsz : entSize e < 2 ^ 64 :=
    Nat.lt_of_le_of_lt (entSize_le_sum entries i e he) (by omega)
  rw [decodeContent, decodeOffset_of_recordAt _ _ _ _ hrec hofflt,
    decodeSize_of_recordAt _ _ _ _ hrec hsz]
  rw [create_unifs_eq entries hok, Option.some_inj] at himg
  have hHJ : ((magic ++ u64le entries.length)
      ++ (specRecs (16 + entries.length * 80) entries).flatten).length
      = 16 + 80 * entries.length := by
    rw [List.length_append, length_header, length_flatten_specRecs]
  have hp : ((entries.take i).map entSize).sum
      = (((entries.map entContent).take i).map List.length).sum := by
    rw [← List.map_take, List.map_map]
    rfl
  rw [← himg,
    show offsetAt entries i
      = ((magic ++ u64le entries.length)
          ++ (specRecs (16 + entries.length * 80) entries).flatten).length
        + ((entries.take i).map entSize).sum by
      rw [hHJ]; unfold offsetAt; ring,
    List.drop_append, hp, flatten_drop_sum_take,
    ← List.map_drop, drop_eq_cons_of_getElem entries i e he, List.map_cons,
    List.flatten_cons, show entSize e = (entContent e).length from rfl,
    List.take_left]

lemma buildLoop_none (entries : List Entry) (off : Nat)
    (h : ∃ e ∈ entries, e.isDir = false ∧ e.content = none) :
    buildLoop entries off = none := by
  induction entries generalizing off with
  | nil => simp at h
  | cons e rest ih =>
    obtain ⟨x, hx, hxd, hxc⟩ := h
    rw [List.mem_cons] at hx
    rcases hx with rfl | hx
    · simp [buildLoop, readEntry, hxd, hxc]
    · cases hre : readEntry e with
      | none => simp [buildLoop, hre]
      | some c => simp [buildLoop, hre, ih _ ⟨x, hx, hxd, hxc⟩]

/-! ### Concrete fixtures -/

/-- The scenario source tree: `a.txt` = `b"hi"` at the root and `sub/b.txt` =
`b"world"` (names and contents as UTF-8 byte values). -/
def tree8 : FS :=
  FS.node
    [([115, 117, 98], FS.node [] [([98, 46, 116, 120, 116], [119, 111, 114, 108, 100])])]
    [([97, 46, 116, 120, 116], [104, 105])]

/-- The entry list the collector produces for `tree8`. -/
def entries8 : List Entry := FS.walk [] tree8

/-- The image built from `tree8`. -/
def img8 : List Nat := (create_unifs entries8).getD []

/-- A source tree holding a single empty directory `d`. -/
def dirOnly : List Entry := [Entry.mk [100, 47] true none]

/-- The image built from `dirOnly`. -/
def img1 : List Nat := (create_unifs dirOnly).getD []

/-- A 70-byte ASCII name (70 copies of the letter `a`). -/
def name70 : List Nat := List.replicate 70 97

/-- A single empty file whose name is 70 bytes long. -/
def longEntries : List Entry := [Entry.mk name70 false (some [])]

/-- The image built from `longEntries`. -/
def imgLong : List Nat := (create_unifs longEntries).getD []

/-! ### The claims -/

/-- C1, counterexample: the claim says every directory record carries
offset 0, but for a tree holding one directory `d/` the emitted record's
offset field decodes to 96 (= 16 + 80·1, the running data offset), not 0.
Its size field is 0 as claimed. -/
theorem C1_dir_offset_counterexample :
    (create_unifs dirOnly).map (fun img => (decodeOffset img 0, decodeSize img 0))
      = some (96, 0) ∧ (96 : Nat) ≠ 0 := by
  constructor
  · decide
  · decide

/-- C1 (amended): every directory record carries size 0, and its offset field
holds the running data offset at emission time (`16 + 80·N` plus the sizes of
the files emitted before it) — not 0: the builder packs `current_offset` into
every record and merely skips advancing it for directories. -/
theorem C1_dir_records (entries : List Entry) (img : List Nat) (i : Nat) (e : Entry)
    (hok : readsOk entries = true)
    (himg : create_unifs entries = some img)
    (hbound : 16 + entries.length * 80 + (entries.map entSize).sum < 2 ^ 64)
    (he : entries[i]? = some e)
    (hdir : e.isDir = true) :
    decodeSize img i = 0 ∧ decodeOffset img i = offsetAt entries i := by
  have hrec := recordAt_spec entries img i e hok himg he
  constructor
  · rw [decodeSize_of_recordAt _ _ _ _ hrec
      (Nat.lt_of_le_of_lt (entSize_le_sum entries i e he) (by omega)),
      entSize_dir e hdir]
  · exact decodeOffset_of_recordAt _ _ _ _ hrec
      (Nat.lt_of_le_of_lt (offsetAt_le entries i) hbound)

/-- C1 witness: the amended claim at the one-directory tree. -/
theorem C1_dir_records_witness :
    decodeSize img1 0 = 0 ∧ decodeOffset img1 0 = offsetAt dirOnly 0 :=
  C1_dir_records dirOnly img1 0 (Entry.mk [100, 47] true none)
    (by decide) (by rfl) (by decide) (by decide) (by decide)

/-- C2: round-trip — decoding the produced image reconstructs, for every
entry, the (possibly 63-byte-truncated) relative-path name, the source
content length, and content bytes identical to the source content. -/
theorem C2_roundtrip (entries : List Entry) (img : List Nat)
    (hok : readsOk entries = true)
    (himg : create_unifs entries = some img)
    (hbound : 16 + entries.length * 80 + (entries.map entSize).sum < 2 ^ 64)
    (hnul : ∀ e ∈ entries, ∀ b ∈ e.name, b ≠ 0) :
    ∀ i e, entries[i]? = some e →
      decodeName img i = truncName e.name
      ∧ decodeSize img i = entSize e
      ∧ decodeContent img i = entContent e := by
  intro i e he
  have hrec := recordAt_spec entries img i e hok himg he
  exact ⟨decodeName_of_recordAt img i e _ hrec (hnul e (List.getElem?_mem he)),
    decodeSize_of_recordAt _ _ _ _ hrec
      (Nat.lt_of_le_of_lt (entSize_le_sum entries i e he) (by omega)),
    decodeContent_spec entries img i e hok himg hbound he⟩

/-- C2 witness: the round-trip at entry 2 (`sub/b.txt`) of the scenario tree. -/
theorem C2_roundtrip_witness :
    decodeName img8 2 = [115, 117, 98, 47, 98, 46, 116, 120, 116]
    ∧ decodeContent img8 2 = [119, 111, 114, 108, 100] := by
  have h := C2_roundtrip entries8 img8 (by decide) (by rfl) (by decide) (by decide) 2
    (Entry.mk [115, 117, 98, 47, 98, 46, 116, 120, 116] false
      (some [119, 111, 114, 108, 100])) (by decide)
  exact ⟨h.1.trans (by decide), h.2.2.trans (by decide)⟩

/-- C3: offset contiguity — consecutive file entries satisfy
`offset[i] + size[i] = offset[k]`, the first file entry sits at `16 + 80·N`,
offsets are non-decreasing in emission order, and the last file entry ends at
`16 + 80·N` plus the total content size. -/
theorem C3_offset_contiguity (entries : List Entry) (img : List Nat)
    (hok : readsOk entries = true)
    (himg : create_unifs entries = some img)
    (hbound : 16 + entries.length * 80 + (entries.map entSize).sum < 2 ^ 64) :
    (∀ i k ei ek, entries[i]? = some ei → entries[k]? = some ek → i < k →
        ei.isDir = false → ek.isDir = false →
        (∀ j ej, i < j → j < k → entries[j]? = some ej → ej.isDir = true) →
        decodeOffset img i + decodeSize img i = decodeOffset img k)
    ∧ (∀ f ef, entries[f]? = some ef → ef.isDir = false →
        (∀ j ej, j < f → entries[j]? = some ej → ej.isDir = true) →
        decodeOffset img f = 16 + 80 * entries.length)
    ∧ (∀ i k ei ek, entries[i]? = some ei → entries[k]? = some ek → i ≤ k →
        ei.isDir = false → ek.isDir = false →
        decodeOffset img i ≤ decodeOffset img k)
    ∧ (∀ l el, entries[l]? = some el → el.isDir = false →
        (∀ j ej, l < j → entries[j]? = some ej → ej.isDir = true) →
        decodeOffset img l + decodeSize img l
          = 16 + 80 * entries.length + (entries.map entSize).sum) := by
  have hoff : ∀ i e, entries[i]? = some e → decodeOffset img i = offsetAt entries i := by
    intro i e he
    exact decodeOffset_of_recordAt _ _ _ _ (recordAt_spec entries img i e hok himg he)
      (Nat.lt_of_le_of_lt (offsetAt_le entries i) hbound)
  have hsz : ∀ i e, entries[i]? = some e → decodeSize img i = entSize e := by
    intro i e he
    exact decodeSize_of_recordAt _ _ _ _ (recordAt_spec entries img i e hok himg he)
      (Nat.lt_of_le_of_lt (entSize_le_sum entries i e he) (by omega))
  refine ⟨?_, ?_, ?_, ?_⟩
  · intro i k ei ek hei hek hik hdi hdk hbet
    rw [hoff i ei hei, hsz i ei hei, hoff k ek hek]
    have h1 := offsetAt_succ_of_get entries i ei hei
    have h2 : offsetAt entries k = offsetAt entries (i + 1) :=
      offsetAt_stable_of_dirs entries (by omega)
        fun j ej hj1 hj2 hje => hbet j ej (by omega) hj2 hje
    omega
  · intro f ef hef hdf hprev
    rw [hoff f ef hef]
    have h2 : offsetAt entries f = offsetAt entries 0 :=
      offsetAt_stable_of_dirs entries (Nat.zero_le f)
        fun j ej hj1 hj2 hje => hprev j ej hj2 hje
    have h0 := offsetAt_zero entries
    omega
  · intro i k ei ek hei hek hik hdi hdk
    rw [hoff i ei hei, hoff k ek hek]
    exact offsetAt_mono entries hik
  · intro l el hel hdl hafter
    rw [hoff l el hel, hsz l el hel]
    have hlt : l < entries.length := (List.getElem?_eq_some_iff.mp hel).1
    have h1 := offsetAt_succ_of_get entries l el hel
    have h2 : offsetAt entries entries.length = offsetAt entries (l + 1) :=
      offsetAt_stable_of_dirs entries (by omega)
        fun j ej hj1 hj2 hje => hafter j ej (by omega) hje
    have h3 := offsetAt_length_eq entries
    omega

/-- C3 witness: contiguity and the first-file offset at the scenario tree. -/
theorem C3_offset_contiguity_witness :
    decodeOffset img8 1 + decodeSize img8 1 = decodeOffset img8 2
    ∧ decodeOffset img8 1 = 16 + 80 * entries8.length := by
  have h := C3_offset_contiguity entries8 img8 (by decide) (by rfl) (by decide)
  refine ⟨h.1 1 2 (Entry.mk [97, 46, 116, 120, 116] false (some [104, 105]))
      (Entry.mk [115, 117, 98, 47, 98, 46, 116, 120, 116] false
        (some [119, 111, 114, 108, 100]))
      (by decide) (by decide) (by decide) (by decide) (by decide)
      (by intro j ej h1 h2 _; omega),
    h.2.1 1 (Entry.mk [97, 46, 116, 120, 116] false (some [104, 105]))
      (by decide) (by decide) ?_⟩
  intro j ej hj hje
  have hj0 : j = 0 := by omega
  subst hj0
  have h0 : entries8[0]? = some (Entry.mk [115, 117, 98, 47] true none) := by decide
  rw [h0, Option.some_inj] at hje
  rw [← hje]

/-- C4: the output image is exactly the 16-byte header (`"UNIFS v1"` then the
u64 little-endian entry count), the 80-byte records in emission order, and
the file contents concatenated in the same order, with no padding anywhere. -/
theorem C4_image_layout (entries : List Entry) (hok : readsOk entries = true) :
    create_unifs entries
      = some (magic ++ u64le entries.length
          ++ (specRecs (16 + entries.length * 80) entries).flatten
          ++ (entries.map entContent).flatten)
    ∧ (magic ++ u64le entries.length).length = 16
    ∧ (∀ r ∈ specRecs (16 + entries.length * 80) entries, r.length = 80) :=
  ⟨create_unifs_eq entries hok, length_header _,
    fun r hr => mem_specRecs_length _ _ r hr⟩

/-- C4 witness: the exact layout at the scenario tree. -/
theorem C4_image_layout_witness :
    create_unifs entries8
      = some (magic ++ u64le entries8.length
          ++ (specRecs (16 + entries8.length * 80) entries8).flatten
          ++ (entries8.map entContent).flatten) :=
  (C4_image_layout entries8 (by decide)).1

/-- C5: the header's entry count equals the number of 80-byte records, which
equals the number of entries the collector produced (files and directories). -/
theorem C5_count (entries : List Entry) (img : List Nat)
    (hok : readsOk entries = true)
    (himg : create_unifs entries = some img)
    (hN : entries.length < 2 ^ 64) :
    decodeCount img = entries.length
    ∧ (specRecs (16 + entries.length * 80) entries).length = entries.length :=
  ⟨decodeCount_spec entries img hok himg hN, specRecs_length _ _⟩

/-- C5 witness: the count invariant at the scenario tree. -/
theorem C5_count_witness : decodeCount img8 = entries8.length :=
  (C5_count entries8 img8 (by decide) (by rfl) (by decide)).1

/-- C6: an unreadable source file aborts the entire build: no image (and hence
no output file, which is only opened after the loop succeeds) is produced. -/
theorem C6_abort (entries : List Entry)
    (h : ∃ e ∈ entries, e.isDir = false ∧ e.content = none) :
    create_unifs entries = none := by
  rw [create_unifs, buildLoop_none entries _ h]

/-- C6 witness: a single unreadable file aborts the build. -/
theorem C6_abort_witness : create_unifs [Entry.mk [97] false none] = none :=
  C6_abort [Entry.mk [97] false none]
    ⟨Entry.mk [97] false none, by decide, by decide, by decide⟩

/-- C7: a name longer than 63 bytes is stored as exactly its first 63 bytes
followed by a zero byte, and the build still succeeds (truncation is not
fatal; the warning is console output only, not part of the image). -/
theorem C7_truncation (entries : List Entry) (img : List Nat) (i : Nat) (e : Entry)
    (hok : readsOk entries = true)
    (himg : create_unifs entries = some img)
    (he : entries[i]? = some e)
    (hlong : e.name.length > 63) :
    nameFieldAt img i = e.name.take 63 ++ [0]
    ∧ (create_unifs entries).isSome = true := by
  have hrec := recordAt_spec entries img i e hok himg he
  constructor
  · rw [nameField_of_recordAt img i e _ hrec, truncName, if_pos hlong,
      pack64s_eq_of_le _ (by rw [List.length_take]; omega)]
    congr 1
    rw [List.length_take, show (63 : Nat) ⊓ e.name.length = 63 by omega]
    rfl
  · rw [himg]
    rfl

/-- C7 witness: a 70-byte ASCII name is stored as its first 63 bytes. -/
theorem C7_truncation_witness :
    nameFieldAt imgLong 0 = name70.take 63 ++ [0]
    ∧ (create_unifs longEntries).isSome = true :=
  C7_truncation longEntries imgLong 0 (Entry.mk name70 false (some []))
    (by decide) (by rfl) (by decide) (by decide)

/-- C8: the scenario `{"a.txt": b"hi", "sub/b.txt": b"world"}` yields three
entries (`sub/` size 0, `a.txt` size 2, `sub/b.txt` size 5, in traversal
order), the header `b"UNIFS v1"` + u64le 3, the data blob `b"hi" + b"world"`
at byte 256, and offsets satisfying the contiguity rule. -/
theorem C8_scenario :
    entries8 = [Entry.mk [115, 117, 98, 47] true none,
      Entry.mk [97, 46, 116, 120, 116] false (some [104, 105]),
      Entry.mk [115, 117, 98, 47, 98, 46, 116, 120, 116] false
        (some [119, 111, 114, 108, 100])]
    ∧ create_unifs entries8 = some img8
    ∧ decodeCount img8 = 3
    ∧ img8.take 16 = magic ++ u64le 3
    ∧ decodeName img8 0 = [115, 117, 98, 47] ∧ decodeSize img8 0 = 0
    ∧ decodeName img8 1 = [97, 46, 116, 120, 116] ∧ decodeSize img8 1 = 2
    ∧ decodeName img8 2 = [115, 117, 98, 47, 98, 46, 116, 120, 116]
    ∧ decodeSize img8 2 = 5
    ∧ img8.drop 256 = [104, 105, 119, 111, 114, 108, 100]
    ∧ decodeOffset img8 1 = 16 + 80 * 3
    ∧ decodeOffset img8 1 + decodeSize img8 1 = decodeOffset img8 2 := by
  decide

/-- C9: an empty source directory produces the 16-byte image
`b"UNIFS v1"` + u64le 0, with an empty table and an empty blob. -/
theorem C9_empty_tree :
    create_unifs (FS.walk [] (FS.node [] [])) = some (magic ++ u64le 0)
    ∧ (magic ++ u64le 0).length = 16 := by
  decide

/-- C10: in every emitted record the 64-byte name field ends in a zero byte
(byte index 63 is 0), so names are always NUL-terminated in images this
builder produces. -/
theorem C10_name_nul (entries : List Entry) (img : List Nat) (i : Nat) (e : Entry)
    (hok : readsOk entries = true)
    (himg : create_unifs entries = some img)
    (he : entries[i]? = some e) :
    (nameFieldAt img i).drop 63 = [0] ∧ (0 : Nat) ∈ nameFieldAt img i := by
  have hrec := recordAt_spec entries img i e hok himg he
  have h1 := nameField_last_zero img i e _ hrec
  have h2 : (0 : Nat) ∈ (nameFieldAt img i).drop 63 := by
    rw [h1]
    exact List.mem_singleton.mpr rfl
  exact ⟨h1, List.mem_of_mem_drop h2⟩

/-- C10 witness: NUL termination of the first record of the scenario image. -/
theorem C10_name_nul_witness :
    (nameFieldAt img8 0).drop 63 = [0] ∧ (0 : Nat) ∈ nameFieldAt img8 0 :=
  C10_name_nul entries8 img8 0 (Entry.mk [115, 117, 98, 47] true none)
    (by decide) (by rfl) (by decide)

end UniFS
